import Mathlib

/-!
Verification of `crates/cli/util/src/parsers.rs` (reth CLI input normalizers).

Strings are embedded as `List Char` (a Rust `&str` is a sequence of chars for
the purposes of these parsers).  Machine integers are embedded as `Nat` with
explicit bounds (`u16`, `u64`, `u128` maxima).  Rust's `f64` is embedded as an
exact sign/mantissa/exponent representation with IEEE-754 round-to-nearest-even
semantics, below.
-/

set_option maxRecDepth 80000

/-- Numeric code point of a char. -/
def charVal (c : Char) : Nat := c.toNat

/-- Value of an ASCII decimal digit, as in Rust's `char::to_digit(10)`. -/
def digitVal (c : Char) : Option Nat :=
  if 48 ≤ charVal c ∧ charVal c ≤ 57 then some (charVal c - 48) else none

/-- The ASCII digit char for `d < 10`. -/
def digitChar (d : Nat) : Char := Char.ofNat (48 + d)

/-- Error kinds of Rust's `std::num::ParseIntError` that unsigned parsing can
produce: `Empty`, `InvalidDigit`, `PosOverflow`. -/
inductive IntErrorKind where
  | empty
  | invalidDigit
  | posOverflow
deriving DecidableEq

/-- Digit-folding loop of Rust's `from_str_radix` (radix 10, unsigned):
multiply the accumulator by 10 and add each digit, failing with
`PosOverflow` as soon as the value would exceed `maxVal`. -/
def parseDigitsGo (maxVal : Nat) : List Char → Nat → Except IntErrorKind Nat
  | [], acc => .ok acc
  | c :: rest, acc =>
    match digitVal c with
    | none => .error .invalidDigit
    | some d =>
      if maxVal < acc * 10 + d then .error .posOverflow
      else parseDigitsGo maxVal rest (acc * 10 + d)

/-- Rust's `str::parse::<uN>` (i.e. `uN::from_str_radix(s, 10)`): empty input
is `Empty`; an optional leading `+` is allowed (a lone `+` is `InvalidDigit`);
then at least one decimal digit, folded with overflow checking against
`maxVal`, the largest value of the unsigned type. -/
def parseUnsigned (maxVal : Nat) (s : List Char) : Except IntErrorKind Nat :=
  match s with
  | [] => .error .empty
  | c :: rest =>
    let digits := if c = '+' then rest else s
    match digits with
    | [] => .error .invalidDigit
    | _ => parseDigitsGo maxVal digits 0

/-- `u16::MAX`. -/
def u16Max : Nat := 65535

/-- `u64::MAX`. -/
def u64Max : Nat := 18446744073709551615

/-- `u128::MAX`. -/
def u128Max : Nat := 340282366920938463463374607431768211455

/-- Rust's `str::ends_with(pat)` for a string pattern: `pat` is a suffix. -/
def endsWith (l pat : List Char) : Bool := List.isPrefixOf pat.reverse l.reverse

/-- Rust's `str::trim_end_matches(pat)` loop body, fuelled: while the string
ends with `pat`, remove that trailing occurrence. -/
def trimEndAux (pat : List Char) : Nat → List Char → List Char
  | 0, l => l
  | fuel + 1, l =>
    if endsWith l pat then trimEndAux pat fuel (l.take (l.length - pat.length))
    else l

/-- Rust's `str::trim_end_matches(pat)`: repeatedly remove the suffix `pat`
from the end of the string.  `l.length` steps of fuel always suffice. -/
def trimEnd (pat : List Char) (l : List Char) : List Char :=
  trimEndAux pat l.length l

/-- The pattern `"ms"`. -/
def msPat : List Char := ['m', 's']

/-- The pattern `"s"` (the char pattern `'s'` of `ends_with`/`trim_end_matches`
behaves as the one-char string). -/
def sPat : List Char := ['s']

/-- `std::time::Duration`: whole seconds plus a nanosecond remainder. -/
structure Duration where
  secs : Nat
  nanos : Nat
deriving DecidableEq

/-- `Duration::from_secs`. -/
def Duration.fromSecs (n : Nat) : Duration := ⟨n, 0⟩

/-- `Duration::from_millis`. -/
def Duration.fromMillis (n : Nat) : Duration := ⟨n / 1000, n % 1000 * 1000000⟩

/-- `parse_duration_from_secs`: parse the whole string as a `u64` and take
that many seconds. -/
def parse_duration_from_secs (arg : List Char) : Except IntErrorKind Duration :=
  (parseUnsigned u64Max arg).map Duration.fromSecs

/-- `parse_duration_from_secs_or_ms`: if the string ends with `"ms"`, trim all
trailing `"ms"` occurrences (`trim_end_matches`) and parse as `u64`
milliseconds; else if it ends with `'s'`, trim all trailing `'s'` chars and
parse as `u64` seconds; else parse the whole string as `u64` seconds. -/
def parse_duration_from_secs_or_ms (arg : List Char) : Except IntErrorKind Duration :=
  if endsWith arg msPat then (parseUnsigned u64Max (trimEnd msPat arg)).map Duration.fromMillis
  else if endsWith arg sPat then (parseUnsigned u64Max (trimEnd sPat arg)).map Duration.fromSecs
  else (parseUnsigned u64Max arg).map Duration.fromSecs

/-- `pat` repeated `k` times, appended to the right, with one occurrence added
per step: `repPat (k+1) p = repPat k p ++ p`. -/
def repPat : Nat → List Char → List Char
  | 0, _ => []
  | k + 1, p => repPat k p ++ p

-- ### Lemmas about `endsWith` / `trimEnd`

theorem endsWith_iff {l pat : List Char} :
    endsWith l pat = true ↔ ∃ pre, l = pre ++ pat := by
  unfold endsWith
  rw [List.isPrefixOf_iff_prefix, List.reverse_prefix]
  constructor
  · rintro ⟨pre, h⟩
    exact ⟨pre, h.symm⟩
  · rintro ⟨pre, h⟩
    exact ⟨pre, h.symm⟩

theorem endsWith_false_of_nil {pat : List Char} (h : pat ≠ []) :
    endsWith [] pat = false := by
  rcases h' : endsWith [] pat with _ | _
  · rfl
  · rcases endsWith_iff.mp h' with ⟨pre, hpre⟩
    exact absurd (List.append_eq_nil.mp hpre.symm).2 h

theorem trimEndAux_succ (pat : List Char) (f : Nat) (l : List Char) :
    trimEndAux pat (f + 1) l =
      if endsWith l pat then trimEndAux pat f (l.take (l.length - pat.length))
      else l := rfl

theorem trimEndAux_spec (pat : List Char) (hpat : pat ≠ []) :
    ∀ fuel l, l.length ≤ fuel →
      (∃ k, l = trimEndAux pat fuel l ++ repPat k pat) ∧
        endsWith (trimEndAux pat fuel l) pat = false := by
  intro fuel
  induction fuel with
  | zero =>
    intro l hl
    have : l = [] := List.eq_nil_of_length_eq_zero (Nat.le_zero.mp hl)
    subst this
    exact ⟨⟨0, rfl⟩, endsWith_false_of_nil hpat⟩
  | succ f ih =>
    intro l hl
    by_cases hend : endsWith l pat = true
    · rcases endsWith_iff.mp hend with ⟨pre, hpre⟩
      have hlen : l.length - pat.length = pre.length := by
        subst hpre; simp [List.length_append]
      have htake : l.take (l.length - pat.length) = pre := by
        rw [hlen]; subst hpre; exact List.take_left pre pat
      have hplen : 1 ≤ pat.length := by
        cases pat with
        | nil => exact absurd rfl hpat
        | cons a t => simp
      have hpre_len : pre.length ≤ f := by
        have : pre.length + pat.length = l.length := by
          subst hpre; simp [List.length_append]
        omega
      have hstep : trimEndAux pat (f + 1) l = trimEndAux pat f pre := by
        simp [trimEndAux_succ, hend, htake]
      rcases ih pre hpre_len with ⟨⟨k, hk⟩, hnoend⟩
      refine ⟨⟨k + 1, ?_⟩, ?_⟩
      · rw [hstep]
        calc l = pre ++ pat := hpre
        _ = (trimEndAux pat f pre ++ repPat k pat) ++ pat := by rw [← hk]
        _ = trimEndAux pat f pre ++ repPat (k + 1) pat := by
              rw [List.append_assoc]; rfl
      · rw [hstep]; exact hnoend
    · simp only [Bool.not_eq_true] at hend
      have hstep : trimEndAux pat (f + 1) l = l := by
        simp [trimEndAux_succ, hend]
      rw [hstep]
      exact ⟨⟨0, by simp [repPat]⟩, hend⟩

theorem trimEnd_spec (pat : List Char) (hpat : pat ≠ []) (l : List Char) :
    (∃ k, l = trimEnd pat l ++ repPat k pat) ∧
      endsWith (trimEnd pat l) pat = false :=
  trimEndAux_spec pat hpat l.length l (Nat.le_refl _)

-- ### Block-identifier parser (`hash_or_num_value_parser`)

/-- Value of a hex digit (`0-9`, `a-f`, `A-F`), as in hex decoding. -/
def hexVal (c : Char) : Option Nat :=
  if 48 ≤ charVal c ∧ charVal c ≤ 57 then some (charVal c - 48)
  else if 97 ≤ charVal c ∧ charVal c ≤ 102 then some (charVal c - 87)
  else if 65 ≤ charVal c ∧ charVal c ≤ 70 then some (charVal c - 55)
  else none

/-- Decode pairs of hex digits into bytes; fails on a non-hex digit or an odd
number of digits. -/
def parseHexBytes : List Char → Option (List Nat)
  | [] => some []
  | [_] => none
  | hi :: lo :: rest =>
    match hexVal hi, hexVal lo with
    | some h, some lv =>
      match parseHexBytes rest with
      | some bs => some ((16 * h + lv) :: bs)
      | none => none
    | _, _ => none

/-- `B256::from_str` (alloy `FixedBytes<32>` hex decoding): an optional
`0x`/`0X` intro is removed, then exactly 64 hex digits decode to 32 bytes. -/
def b256FromStr (l : List Char) : Option (List Nat) :=
  let body :=
    match l with
    | '0' :: 'x' :: rest => rest
    | '0' :: 'X' :: rest => rest
    | _ => l
  if body.length = 64 then parseHexBytes body else none

/-- `BlockHashOrNumber`: a 32-byte hash or a `u64` block number. -/
inductive BlockHashOrNumber where
  | hash (h : List Nat)
  | number (n : Nat)
deriving DecidableEq

/-- `hash_or_num_value_parser`: try `B256::from_str` first; on success return
the hash variant, otherwise parse the string as a `u64` number, propagating
the numeric-parse error. -/
def hash_or_num_value_fn (value : List Char) : Except IntErrorKind BlockHashOrNumber :=
  match b256FromStr value with
  | some h => .ok (.hash h)
  | none =>
    match parseUnsigned u64Max value with
    | .ok n => .ok (.number n)
    | .error e => .error e

-- ### Socket-address parser (`parse_socket_address`)

/-- IP addresses: a V4 quad, or an opaque V6 address (only produced by the
external resolver). -/
inductive IpAddr where
  | v4 (a b c d : Nat)
  | v6 (segs : Nat)
deriving DecidableEq

/-- `Ipv4Addr::LOCALHOST` = `127.0.0.1`. -/
def localhostIp : IpAddr := .v4 127 0 0 1

/-- `std::net::SocketAddr`: an (IP, port) pair. -/
structure SockAddr where
  ip : IpAddr
  port : Nat
deriving DecidableEq

/-- `SocketAddressParsingError`: the dedicated error enum of
`parse_socket_address`. -/
inductive SocketAddressParsingError where
  | ioErr (code : Nat)
  | empty
  | parse (s : List Char)
  | port (e : IntErrorKind)
deriving DecidableEq

/-- Rust's `str::strip_prefix(pat)`: remove `pat` from the front if it is a
prefix of the string. -/
def stripPre (pat l : List Char) : Option (List Char) :=
  if List.isPrefixOf pat l then some (l.drop pat.length) else none

/-- The literal `"localhost:"`. -/
def lhColon : List Char := ['l', 'o', 'c', 'a', 'l', 'h', 'o', 's', 't', ':']

/-- `value.strip_prefix(':').or_else(|| value.strip_prefix("localhost:"))`. -/
def stripPortPre (value : List Char) : Option (List Char) :=
  match stripPre [':'] value with
  | some r => some r
  | none => stripPre lhColon value

/-- `parse_socket_address`: empty input fails with `Empty`; a `:`- or
`localhost:`-prefixed input parses the remainder as a `u16` port (failure is
the `Port` error) and returns the loopback address with that port; a bare
`u16` likewise; otherwise the string goes to the external resolver
(`to_socket_addrs`), whose I/O failure is the `Io` error, whose empty answer
is the `Parse` error, and whose first address is the result. -/
def parse_socket_address (resolve : List Char → Except Nat (List SockAddr))
    (value : List Char) : Except SocketAddressParsingError SockAddr :=
  if value = [] then .error .empty
  else
    match stripPortPre value with
    | some pr =>
      match parseUnsigned u16Max pr with
      | .ok p => .ok ⟨localhostIp, p⟩
      | .error e => .error (.port e)
    | none =>
      match parseUnsigned u16Max value with
      | .ok p => .ok ⟨localhostIp, p⟩
      | .error _ =>
        match resolve value with
        | .error code => .error (.ioErr code)
        | .ok [] => .error (.parse value)
        | .ok (a :: _) => .ok a

-- ### Decimal rendering and its round trip through `parseUnsigned`

/-- Decimal digits of `n`, most significant first, fuelled (`n < fuel`
suffices). -/
def decDigitsF : Nat → Nat → List Char
  | 0, _ => []
  | f + 1, n =>
    if n < 10 then [digitChar n]
    else decDigitsF f (n / 10) ++ [digitChar (n % 10)]

/-- The decimal string `str(n)` of a natural number. -/
def decStr (n : Nat) : List Char := decDigitsF (n + 1) n

theorem decDigitsF_succ (f n : Nat) :
    decDigitsF (f + 1) n =
      if n < 10 then [digitChar n]
      else decDigitsF f (n / 10) ++ [digitChar (n % 10)] := rfl

theorem digitVal_digitChar {d : Nat} (h : d < 10) :
    digitVal (digitChar d) = some d := by
  interval_cases d <;> decide

theorem digitChar_ne_plus {d : Nat} (h : d < 10) : digitChar d ≠ '+' := by
  interval_cases d <;> decide

theorem digitChar_ne_colon {d : Nat} (h : d < 10) : digitChar d ≠ ':' := by
  interval_cases d <;> decide

theorem digitChar_ne_l {d : Nat} (h : d < 10) : digitChar d ≠ 'l' := by
  interval_cases d <;> decide

theorem parseDigitsGo_append (maxVal : Nat) :
    ∀ (l₁ l₂ : List Char) (acc : Nat),
      parseDigitsGo maxVal (l₁ ++ l₂) acc =
        match parseDigitsGo maxVal l₁ acc with
        | .ok a => parseDigitsGo maxVal l₂ a
        | .error e => .error e := by
  intro l₁
  induction l₁ with
  | nil => intro l₂ acc; rfl
  | cons c rest ih =>
    intro l₂ acc
    cases h : digitVal c with
    | none => simp [parseDigitsGo, h]
    | some d =>
      by_cases hb : maxVal < acc * 10 + d
      · simp [parseDigitsGo, h, hb]
      · simp [parseDigitsGo, h, hb, ih]

theorem decDigitsF_head :
    ∀ f n, n < f → ∃ d rest, decDigitsF f n = digitChar d :: rest ∧ d < 10 := by
  intro f
  induction f with
  | zero => intro n h; exact absurd h (Nat.not_lt_zero n)
  | succ f ih =>
    intro n h
    by_cases h10 : n < 10
    · exact ⟨n, [], by simp [decDigitsF_succ, h10], h10⟩
    · have hpos : 0 < n := by omega
      have hdiv := Nat.div_lt_self hpos (by omega : 1 < 10)
      have hlt : n / 10 < f := by omega
      rcases ih (n / 10) hlt with ⟨d, rest, hrec, hd⟩
      refine ⟨d, rest ++ [digitChar (n % 10)], ?_, hd⟩
      simp [decDigitsF_succ, h10, hrec]

theorem parseDigitsGo_decDigitsF (maxVal : Nat) :
    ∀ f n acc, n < f →
      acc * 10 ^ (decDigitsF f n).length + n ≤ maxVal →
      parseDigitsGo maxVal (decDigitsF f n) acc =
        .ok (acc * 10 ^ (decDigitsF f n).length + n) := by
  intro f
  induction f with
  | zero => intro n acc h _; exact absurd h (Nat.not_lt_zero n)
  | succ f ih =>
    intro n acc hn hbound
    by_cases h10 : n < 10
    · have hlist : decDigitsF (f + 1) n = [digitChar n] := by
        simp [decDigitsF_succ, h10]
      rw [hlist] at hbound ⊢
      have hb : ¬ maxVal < acc * 10 + n := by
        simp only [List.length_cons, List.length_nil, pow_one] at hbound
        omega
      simp [parseDigitsGo, digitVal_digitChar h10, hb, pow_one]
    · have hlist : decDigitsF (f + 1) n =
          decDigitsF f (n / 10) ++ [digitChar (n % 10)] := by
        simp [decDigitsF_succ, h10]
      have hpos : 0 < n := by omega
      have hdiv := Nat.div_lt_self hpos (by omega : 1 < 10)
      have hlt : n / 10 < f := by omega
      rw [hlist] at hbound ⊢
      rw [List.length_append] at hbound ⊢
      simp only [List.length_cons, List.length_nil, Nat.zero_add] at hbound ⊢
      have hsplit :
          (acc * 10 ^ (decDigitsF f (n / 10)).length + n / 10) * 10 + n % 10 =
            acc * 10 ^ ((decDigitsF f (n / 10)).length + 1) + n := by
        have hmod : n / 10 * 10 + n % 10 = n := by
          have := Nat.div_add_mod n 10
          omega
        have hexp : (10 : Nat) ^ ((decDigitsF f (n / 10)).length + 1) =
            10 ^ (decDigitsF f (n / 10)).length * 10 := pow_succ 10 _
        calc (acc * 10 ^ (decDigitsF f (n / 10)).length + n / 10) * 10 + n % 10
            = acc * (10 ^ (decDigitsF f (n / 10)).length * 10) +
                (n / 10 * 10 + n % 10) := by ring
          _ = acc * 10 ^ ((decDigitsF f (n / 10)).length + 1) + n := by
                rw [hmod, ← hexp]
      have hmid : acc * 10 ^ (decDigitsF f (n / 10)).length + n / 10 ≤ maxVal := by
        rw [← hsplit] at hbound
        omega
      rw [parseDigitsGo_append, ih (n / 10) acc hlt hmid]
      have hb : ¬ maxVal <
          (acc * 10 ^ (decDigitsF f (n / 10)).length + n / 10) * 10 + n % 10 := by
        rw [hsplit]
        omega
      have hmod10 : n % 10 < 10 := Nat.mod_lt n (by omega)
      simp only [parseDigitsGo, digitVal_digitChar hmod10, hb, if_false]
      rw [hsplit]

theorem parseUnsigned_decStr {maxVal p : Nat} (h : p ≤ maxVal) :
    parseUnsigned maxVal (decStr p) = .ok p := by
  rcases decDigitsF_head (p + 1) p (Nat.lt_succ_self p) with ⟨d, rest, heq, hd⟩
  have hgo := parseDigitsGo_decDigitsF maxVal (p + 1) p 0 (Nat.lt_succ_self p)
    (by simpa using h)
  unfold decStr
  rw [heq] at hgo ⊢
  simp only [parseUnsigned, digitChar_ne_plus hd, if_neg, if_false]
  simp only [Nat.zero_mul, Nat.zero_add] at hgo
  simpa [digitChar_ne_plus hd] using hgo

-- ### Exact model of `f64` (IEEE-754 binary64, round-to-nearest-even)

/-- An `f64` value: NaN or infinity (each carrying the sign bit), or a finite
value `(-1)^neg * m * 2^e` with `m < 2^53`. -/
inductive F64 where
  | nan (neg : Bool)
  | inf (neg : Bool)
  | finite (neg : Bool) (m : Nat) (e : Int)
deriving DecidableEq

/-- `f64::is_sign_negative`: the sign bit, defined for NaN, infinities and
(negative) zero alike. -/
def F64.isSignNegative : F64 → Bool
  | .nan neg => neg
  | .inf neg => neg
  | .finite neg _ _ => neg

/-- Exact rational value of a finite `f64`; `none` for NaN and infinities. -/
def F64.toRat : F64 → Option ℚ
  | .finite neg m e => some ((if neg then (-1 : ℚ) else 1) * (m : ℚ) * (2 : ℚ) ^ (e : ℤ))
  | _ => none

/-- Fuelled floor of `log2 n` (any fuel `≥ n ≥ 1` is exact). -/
def log2F : Nat → Nat → Nat
  | 0, _ => 0
  | f + 1, n => if n < 2 then 0 else log2F f (n / 2) + 1

/-- Is `2^e ≤ num / den`? (both positive). -/
def pow2LeRat (num den : Nat) (e : Int) : Bool :=
  if 0 ≤ e then den * 2 ^ e.toNat ≤ num else den ≤ num * 2 ^ (-e).toNat

/-- `⌊log2 (num / den)⌋` for positive `num`, `den`: a guess from the integer
log2s of numerator and denominator, corrected by one exact comparison. -/
def ratLog2 (num den : Nat) : Int :=
  let g : Int := (log2F num num : Int) - (log2F den den : Int)
  if pow2LeRat num den g then g else g - 1

/-- Round `N / D` to the nearest integer, ties to even. -/
def roundNE (N D : Nat) : Nat :=
  let q := N / D
  let r := N % D
  if D < 2 * r then q + 1
  else if 2 * r < D then q
  else if q % 2 = 0 then q else q + 1

/-- Round the positive rational `num / den` to the nearest `f64` with sign
`s`: normal numbers get a 53-bit significand at scale `⌊log2⌋ - 52`,
subnormals are rounded at the fixed scale `2^-1074`, and results at or above
`2^1024` overflow to infinity. -/
def roundPosRat (s : Bool) (num den : Nat) : F64 :=
  let e := ratLog2 num den
  let sexp : Int := if e < -1022 then -1074 else e - 52
  let N := if 0 ≤ sexp then num else num * 2 ^ (-sexp).toNat
  let D := if 0 ≤ sexp then den * 2 ^ sexp.toNat else den
  let m0 := roundNE N D
  let m := if m0 = 2 ^ 53 then 2 ^ 52 else m0
  let sexp2 := if m0 = 2 ^ 53 then sexp + 1 else sexp
  if 0 ≤ sexp2 ∧ 2 ^ 1024 ≤ m * 2 ^ sexp2.toNat then .inf s
  else .finite s m sexp2

/-- ASCII lower-casing of a char, as Rust's float parser treats
`inf`/`infinity`/`nan` case-insensitively. -/
def toLowerChar (c : Char) : Char :=
  if 65 ≤ charVal c ∧ charVal c ≤ 90 then Char.ofNat (charVal c + 32) else c

/-- The literal `"infinity"`. -/
def infinityLit : List Char := ['i', 'n', 'f', 'i', 'n', 'i', 't', 'y']

/-- Is this an ASCII decimal digit? -/
def isDigitB (c : Char) : Bool := decide (48 ≤ charVal c ∧ charVal c ≤ 57)

/-- Numeric value of a digit string, most significant first. -/
def natOfDigits (l : List Char) : Nat :=
  l.foldl (fun acc c => acc * 10 + ((digitVal c).getD 0)) 0

/-- Parse an optional exponent part `('e'|'E') ('+'|'-')? Digit+` at the end
of a float literal; returns the exponent value and the unconsumed remainder
(so a malformed exponent part is left unconsumed and rejected later). -/
def parseExpPart (r : List Char) : Int × List Char :=
  match r with
  | c :: t =>
    if c = 'e' ∨ c = 'E' then
      let (sgn, u) : Int × List Char :=
        match t with
        | '+' :: u => (1, u)
        | '-' :: u => (-1, u)
        | u => (1, u)
      let d3 := u.takeWhile isDigitB
      if d3 = [] then (0, r)
      else (sgn * (natOfDigits d3 : Int), u.drop d3.length)
    else (0, r)
  | [] => (0, [])

/-- Parse the `Number` production of Rust's `f64` grammar
(`Digit+ | Digit+ '.' Digit* | Digit* '.' Digit+`, then an optional
exponent), and correctly round the exact decimal value `mant * 10^e10` to the
nearest `f64`. -/
def parseDecNumber (neg : Bool) (rest : List Char) : Option F64 :=
  let d1 := rest.takeWhile isDigitB
  let r1 := rest.drop d1.length
  let (d2, r2) : List Char × List Char :=
    match r1 with
    | '.' :: t => (t.takeWhile isDigitB, t.drop (t.takeWhile isDigitB).length)
    | _ => ([], r1)
  if d1 = [] ∧ d2 = [] then none
  else
    let (expVal, r3) := parseExpPart r2
    if r3 ≠ [] then none
    else
      let mant := natOfDigits (d1 ++ d2)
      let e10 : Int := expVal - (d2.length : Int)
      if mant = 0 then some (.finite neg 0 0)
      else if 0 ≤ e10 then some (roundPosRat neg (mant * 10 ^ e10.toNat) 1)
      else some (roundPosRat neg mant (10 ^ (-e10).toNat))

/-- Rust's `f64::from_str`: an optional sign, then `inf`, `infinity` or `nan`
(case-insensitive) or a decimal number, correctly rounded to the nearest
`f64`; nothing else is accepted and the whole string must be consumed. -/
def parseF64 (l : List Char) : Option F64 :=
  match l with
  | [] => none
  | _ =>
    let (neg, rest) : Bool × List Char :=
      match l with
      | '+' :: r => (false, r)
      | '-' :: r => (true, r)
      | r => (false, r)
    match rest with
    | [] => none
    | _ =>
      let low := rest.map toLowerChar
      if low = ['i', 'n', 'f'] ∨ low = infinityLit then some (.inf neg)
      else if low = ['n', 'a', 'n'] then some (.nan neg)
      else parseDecNumber neg rest

/-- The `f64` constant `1e18` of `parse_ether_value` (`10^18` is exactly
representable: `10^18 = 7812500000000000 * 2^7`). -/
def ethScale : F64 := .finite false 7812500000000000 7

/-- `f64` multiplication: NaN absorbs, infinity times zero is NaN, infinity
times a nonzero value is a signed infinity, and finite times finite is the
exact product correctly rounded (zero products keep the XOR-ed sign). -/
def f64Mul (a b : F64) : F64 :=
  match a, b with
  | .nan _, _ => .nan false
  | _, .nan _ => .nan false
  | .inf s1, .inf s2 => .inf (xor s1 s2)
  | .inf s1, .finite s2 m _ => if m = 0 then .nan false else .inf (xor s1 s2)
  | .finite s1 m _, .inf s2 => if m = 0 then .nan false else .inf (xor s1 s2)
  | .finite s1 m1 e1, .finite s2 m2 e2 =>
    let s := xor s1 s2
    if m1 = 0 ∨ m2 = 0 then .finite s 0 0
    else
      let E := e1 + e2
      if 0 ≤ E then roundPosRat s (m1 * m2 * 2 ^ E.toNat) 1
      else roundPosRat s (m1 * m2) (2 ^ (-E).toNat)

/-- Floor of the nonnegative value `m * 2^e`. -/
def floorPos (m : Nat) (e : Int) : Nat :=
  if 0 ≤ e then m * 2 ^ e.toNat else m / 2 ^ (-e).toNat

/-- Rust's saturating `as u128` cast: NaN goes to 0, values below 0 go to 0,
values above `u128::MAX` go to `u128::MAX`, and finite values in range are
truncated toward zero. -/
def castU128 (g : F64) : Nat :=
  match g with
  | .nan _ => 0
  | .inf neg => if neg then 0 else u128Max
  | .finite neg m e =>
    if neg then 0 else min u128Max (floorPos m e)

/-- The error taxonomy of `parse_ether_value`: the propagated
`ParseFloatError` and the explicit "Ether value cannot be negative" message. -/
inductive EtherParseError where
  | floatParse
  | negative
deriving DecidableEq

/-- `parse_ether_value`: parse the string as an `f64`; reject a parse failure
and any value with a negative sign bit; otherwise multiply by `1e18` and cast
to `u128`. -/
def parse_ether_value (value : List Char) : Except EtherParseError Nat :=
  match parseF64 value with
  | none => .error .floatParse
  | some eth =>
    if eth.isSignNegative then .error .negative
    else .ok (castU128 (f64Mul eth ethScale))

-- ### Supporting lemmas for the claim theorems

theorem stripPre_self_append (pre l : List Char) : stripPre pre (pre ++ l) = some l := by
  have h : List.isPrefixOf pre (pre ++ l) = true :=
    List.isPrefixOf_iff_prefix.mpr ⟨l, rfl⟩
  simp [stripPre, h]

theorem stripPre_cons_ne {a b : Char} (h : a ≠ b) (pre l : List Char) :
    stripPre (a :: pre) (b :: l) = none := by
  have hp : List.isPrefixOf (a :: pre) (b :: l) = false := by
    rcases hq : List.isPrefixOf (a :: pre) (b :: l) with _ | _
    · rfl
    · rcases List.isPrefixOf_iff_prefix.mp hq with ⟨t, ht⟩
      cases ht
      exact absurd rfl h
  simp [stripPre, hp]

theorem stripPortPre_digit {d : Nat} (hd : d < 10) (rest : List Char) :
    stripPortPre (digitChar d :: rest) = none := by
  have h1 : stripPre [':'] (digitChar d :: rest) = none :=
    stripPre_cons_ne (Ne.symm (digitChar_ne_colon hd)) [] rest
  have h2 : stripPre lhColon (digitChar d :: rest) = none :=
    stripPre_cons_ne (Ne.symm (digitChar_ne_l hd)) _ rest
  simp [stripPortPre, h1, h2]

theorem stripPortPre_colon (l : List Char) : stripPortPre (':' :: l) = some l := by
  have h : stripPre [':'] (':' :: l) = some l := stripPre_self_append [':'] l
  simp [stripPortPre, h]

theorem stripPortPre_localhost (l : List Char) :
    stripPortPre (lhColon ++ l) = some l := by
  have h1 : stripPre [':'] (lhColon ++ l) = none :=
    stripPre_cons_ne (by decide : ':' ≠ 'l') [] _
  have h2 : stripPre lhColon (lhColon ++ l) = some l := stripPre_self_append lhColon l
  simp [stripPortPre, h1, h2]

theorem exceptMap_error_iff {α β γ : Type} (f : α → β) (x : Except γ α) (e : γ) :
    x.map f = .error e ↔ x = .error e := by
  cases x <;> simp [Except.map]

theorem isSignNegative_ite (c : Prop) [Decidable c] (s : Bool) (m : Nat) (e : Int) :
    (if c then F64.inf s else F64.finite s m e).isSignNegative = s := by
  split <;> rfl

theorem roundPosRat_isSignNegative (s : Bool) (num den : Nat) :
    (roundPosRat s num den).isSignNegative = s := by
  unfold roundPosRat
  dsimp only
  apply isSignNegative_ite

theorem f64Mul_sign_false {a b : F64} (ha : a.isSignNegative = false)
    (hb : b.isSignNegative = false) : (f64Mul a b).isSignNegative = false := by
  cases a with
  | nan s => cases b <;> rfl
  | inf s =>
    cases b with
    | nan t => rfl
    | inf t =>
      simp [F64.isSignNegative] at ha hb
      simp [f64Mul, F64.isSignNegative, ha, hb]
    | finite t m e =>
      simp [F64.isSignNegative] at ha hb
      by_cases hm : m = 0 <;> simp [f64Mul, F64.isSignNegative, ha, hb, hm]
  | finite s m1 e1 =>
    cases b with
    | nan t => rfl
    | inf t =>
      simp [F64.isSignNegative] at ha hb
      by_cases hm : m1 = 0 <;> simp [f64Mul, F64.isSignNegative, ha, hb, hm]
    | finite t m2 e2 =>
      simp [F64.isSignNegative] at ha hb
      subst ha; subst hb
      by_cases hm : m1 = 0 ∨ m2 = 0
      · simp [f64Mul, F64.isSignNegative, hm]
      · simp only [f64Mul, hm, if_false]
        by_cases hE : 0 ≤ e1 + e2 <;>
          simp [hE, roundPosRat_isSignNegative]

theorem floorPos_bounds (m : Nat) (e : Int) :
    ((floorPos m e : Nat) : ℚ) ≤ (m : ℚ) * (2 : ℚ) ^ (e : ℤ) ∧
      (m : ℚ) * (2 : ℚ) ^ (e : ℤ) < (floorPos m e : Nat) + 1 := by
  unfold floorPos
  by_cases he : 0 ≤ e
  · rw [if_pos he]
    have hz : (2 : ℚ) ^ (e : ℤ) = (2 : ℚ) ^ e.toNat := by
      conv_lhs => rw [← Int.toNat_of_nonneg he]
      exact zpow_natCast 2 e.toNat
    rw [hz]
    constructor
    · push_cast; exact le_refl _
    · push_cast; exact lt_add_one _
  · rw [if_neg he]
    have hk : (e : ℤ) = -(((-e).toNat : ℕ) : ℤ) := by
      rw [Int.toNat_of_nonneg (by omega : 0 ≤ -e)]; omega
    set k : Nat := (-e).toNat with hkdef
    have h2k : (0 : ℚ) < 2 ^ k := by positivity
    have hz : (2 : ℚ) ^ (e : ℤ) = ((2 : ℚ) ^ k)⁻¹ := by
      rw [hk, zpow_neg, zpow_natCast]
    rw [hz, ← div_eq_mul_inv]
    have hdm := Nat.div_add_mod m (2 ^ k)
    have hmod : m % 2 ^ k < 2 ^ k := Nat.mod_lt m (Nat.pos_pow_of_pos k (by omega))
    constructor
    · rw [le_div_iff₀ h2k]
      have : (m / 2 ^ k) * 2 ^ k ≤ m := Nat.div_mul_le_self m (2 ^ k)
      exact_mod_cast this
    · rw [div_lt_iff₀ h2k]
      have : m < (m / 2 ^ k + 1) * 2 ^ k := by
        calc m = 2 ^ k * (m / 2 ^ k) + m % 2 ^ k := (Nat.div_add_mod m (2 ^ k)).symm
          _ < 2 ^ k * (m / 2 ^ k) + 2 ^ k := by omega
          _ = (m / 2 ^ k + 1) * 2 ^ k := by ring
      calc (m : ℚ) < ((m / 2 ^ k + 1 : Nat) : ℚ) * ((2 ^ k : Nat) : ℚ) := by
            exact_mod_cast this
        _ = (((m / 2 ^ k : Nat) : ℚ) + 1) * 2 ^ k := by push_cast; ring

-- ### Resolvers used by witnesses

/-- A resolver that always fails with an I/O error (the local paths of
`parse_socket_address` never consult it). -/
def resolveNone : List Char → Except Nat (List SockAddr) := fun _ => .error 0

/-- A resolver returning a non-loopback (V6) address, exercising the
host-resolution path. -/
def resolveV6 : List Char → Except Nat (List SockAddr) :=
  fun _ => .ok [⟨.v6 1, 7⟩]

-- ### Claim theorems

/-- C1: for every valid 16-bit port `p`, `parse_socket_address` succeeds on
each of `str(p)`, `":" ++ str(p)` and `"localhost:" ++ str(p)`, and in each
case returns the socket address `(127.0.0.1, p)`, whatever the external
resolver does. -/
theorem C1_socket_port_forms (resolve : List Char → Except Nat (List SockAddr))
    (p : Nat) (hp : p < 65536) :
    parse_socket_address resolve (decStr p) = .ok ⟨localhostIp, p⟩ ∧
    parse_socket_address resolve (':' :: decStr p) = .ok ⟨localhostIp, p⟩ ∧
    parse_socket_address resolve (lhColon ++ decStr p) = .ok ⟨localhostIp, p⟩ := by
  have hple : p ≤ u16Max := by simp only [u16Max]; omega
  have hparse : parseUnsigned u16Max (decStr p) = .ok p := parseUnsigned_decStr hple
  rcases decDigitsF_head (p + 1) p (Nat.lt_succ_self p) with ⟨d, rest, heq, hd⟩
  have hdec : decStr p = digitChar d :: rest := heq
  have hne : decStr p ≠ [] := by rw [hdec]; simp
  refine ⟨?_, ?_, ?_⟩
  · have hnone : stripPortPre (decStr p) = none := by
      rw [hdec]; exact stripPortPre_digit hd rest
    unfold parse_socket_address
    rw [if_neg hne]
    simp only [hnone, hparse]
  · have hsome : stripPortPre (':' :: decStr p) = some (decStr p) :=
      stripPortPre_colon (decStr p)
    unfold parse_socket_address
    rw [if_neg (by simp : (':' :: decStr p) ≠ [])]
    simp only [hsome, hparse]
  · have hsome : stripPortPre (lhColon ++ decStr p) = some (decStr p) :=
      stripPortPre_localhost (decStr p)
    unfold parse_socket_address
    rw [if_neg (by simp [lhColon] : (lhColon ++ decStr p) ≠ [])]
    simp only [hsome, hparse]

/-- Witness for C1 at the concrete port 9000 (with a resolver that would
fail if it were ever consulted). -/
theorem C1_socket_port_forms_witness :
    parse_socket_address resolveNone (decStr 9000) = .ok ⟨localhostIp, 9000⟩ ∧
    parse_socket_address resolveNone (':' :: decStr 9000) = .ok ⟨localhostIp, 9000⟩ ∧
    parse_socket_address resolveNone (lhColon ++ decStr 9000) = .ok ⟨localhostIp, 9000⟩ :=
  C1_socket_port_forms resolveNone 9000 (by decide)

/-- C2 is refuted at the input `"5ss"`: it ends with `"s"` (and not with
`"ms"`), stripping that suffix once leaves `"5s"`, which does not parse as an
unsigned integer — so by the claim the malformed-integer error should be
raised — yet the function succeeds with 5 seconds, because the code's
`trim_end_matches` strips every trailing `'s'`, not just one. -/
theorem C2_strip_once_counterexample :
    endsWith ['5', 's', 's'] msPat = false ∧
    endsWith ['5', 's', 's'] sPat = true ∧
    parseUnsigned u64Max ['5', 's'] = .error .invalidDigit ∧
    parse_duration_from_secs_or_ms ['5', 's', 's'] = .ok (Duration.fromSecs 5) :=
  ⟨rfl, rfl, rfl, rfl⟩

/-- C2 (amended): if the string ends with `"ms"`, ALL trailing occurrences of
`"ms"` are stripped and the remainder is parsed as an unsigned integer,
yielding milliseconds; else if it ends with `"s"`, ALL trailing `'s'`
characters are stripped and the remainder is parsed, yielding seconds;
otherwise the whole string is parsed as seconds; the malformed-integer error
is raised exactly when the fully-stripped remainder fails to parse. -/
theorem C2_suffix_semantics (arg : List Char) :
    (endsWith arg msPat = true →
      parse_duration_from_secs_or_ms arg =
        (parseUnsigned u64Max (trimEnd msPat arg)).map Duration.fromMillis ∧
      (∃ k, arg = trimEnd msPat arg ++ repPat k msPat) ∧
      endsWith (trimEnd msPat arg) msPat = false ∧
      (∀ e, parse_duration_from_secs_or_ms arg = .error e ↔
        parseUnsigned u64Max (trimEnd msPat arg) = .error e)) ∧
    (endsWith arg msPat = false → endsWith arg sPat = true →
      parse_duration_from_secs_or_ms arg =
        (parseUnsigned u64Max (trimEnd sPat arg)).map Duration.fromSecs ∧
      (∃ k, arg = trimEnd sPat arg ++ repPat k sPat) ∧
      endsWith (trimEnd sPat arg) sPat = false ∧
      (∀ e, parse_duration_from_secs_or_ms arg = .error e ↔
        parseUnsigned u64Max (trimEnd sPat arg) = .error e)) ∧
    (endsWith arg msPat = false → endsWith arg sPat = false →
      parse_duration_from_secs_or_ms arg =
        (parseUnsigned u64Max arg).map Duration.fromSecs) := by
  refine ⟨?_, ?_, ?_⟩
  · intro hms
    have heq : parse_duration_from_secs_or_ms arg =
        (parseUnsigned u64Max (trimEnd msPat arg)).map Duration.fromMillis := by
      unfold parse_duration_from_secs_or_ms
      rw [if_pos hms]
    obtain ⟨hdecomp, hnoend⟩ := trimEnd_spec msPat (by simp [msPat]) arg
    exact ⟨heq, hdecomp, hnoend, fun e => by rw [heq]; exact exceptMap_error_iff _ _ e⟩
  · intro hms hs
    have heq : parse_duration_from_secs_or_ms arg =
        (parseUnsigned u64Max (trimEnd sPat arg)).map Duration.fromSecs := by
      unfold parse_duration_from_secs_or_ms
      rw [if_neg (by simp [hms]), if_pos hs]
    obtain ⟨hdecomp, hnoend⟩ := trimEnd_spec sPat (by simp [sPat]) arg
    exact ⟨heq, hdecomp, hnoend, fun e => by rw [heq]; exact exceptMap_error_iff _ _ e⟩
  · intro hms hs
    unfold parse_duration_from_secs_or_ms
    rw [if_neg (by simp [hms]), if_neg (by simp [hs])]

/-- Witness for C2 (amended) at `"7ms"`. -/
theorem C2_suffix_semantics_witness :
    parse_duration_from_secs_or_ms ['7', 'm', 's'] =
      (parseUnsigned u64Max (trimEnd msPat ['7', 'm', 's'])).map Duration.fromMillis ∧
    (∃ k, ['7', 'm', 's'] = trimEnd msPat ['7', 'm', 's'] ++ repPat k msPat) ∧
    endsWith (trimEnd msPat ['7', 'm', 's']) msPat = false ∧
    (∀ e, parse_duration_from_secs_or_ms ['7', 'm', 's'] = .error e ↔
      parseUnsigned u64Max (trimEnd msPat ['7', 'm', 's']) = .error e) :=
  (C2_suffix_semantics ['7', 'm', 's']).1 rfl

/-- C3: a string accepted by the 32-byte hex hash parse always yields the
hash variant and never the number variant; a string rejected by it yields the
number variant exactly when it parses as a `u64`, and otherwise propagates
the numeric-parse error. -/
theorem C3_hash_priority (value : List Char) :
    (∀ h, b256FromStr value = some h →
      hash_or_num_value_fn value = .ok (.hash h) ∧
      ∀ n, hash_or_num_value_fn value ≠ .ok (.number n)) ∧
    (b256FromStr value = none →
      (∀ n, parseUnsigned u64Max value = .ok n →
        hash_or_num_value_fn value = .ok (.number n)) ∧
      (∀ e, parseUnsigned u64Max value = .error e →
        hash_or_num_value_fn value = .error e)) := by
  constructor
  · intro h hb
    have heq : hash_or_num_value_fn value = .ok (.hash h) := by
      unfold hash_or_num_value_fn
      rw [hb]
    exact ⟨heq, fun n hn => by rw [heq] at hn; simp at hn⟩
  · intro hb
    constructor
    · intro n hn
      unfold hash_or_num_value_fn
      rw [hb, hn]
    · intro e he
      unfold hash_or_num_value_fn
      rw [hb, he]

/-- Witness for C3: 64 hex digits `1` parse as the hash of 32 `0x11` bytes
(never a number), and `"7"` parses as the number 7. -/
theorem C3_hash_priority_witness :
    (hash_or_num_value_fn (List.replicate 64 '1') =
        .ok (.hash (List.replicate 32 17)) ∧
      ∀ n, hash_or_num_value_fn (List.replicate 64 '1') ≠ .ok (.number n)) ∧
    hash_or_num_value_fn ['7'] = .ok (.number 7) :=
  ⟨(C3_hash_priority (List.replicate 64 '1')).1 (List.replicate 32 17) rfl,
    ((C3_hash_priority ['7']).2 rfl).1 7 rfl⟩

/-- C4: `parse_ether_value` maps `"1.05"` to `1050000000000000000`, `"2"` to
`2000000000000000000` and `"0"` to `0`; and in general a successful result is
the product float truncated toward zero into a `u128`: whenever the parsed
float times the `1e18` float has exact value `q < 2^128`, the returned `w`
satisfies `w ≤ q < w + 1` (the fractional part is discarded, not rounded). -/
theorem C4_ether_truncation :
    parse_ether_value ['1', '.', '0', '5'] = .ok 1050000000000000000 ∧
    parse_ether_value ['2'] = .ok 2000000000000000000 ∧
    parse_ether_value ['0'] = .ok 0 ∧
    (∀ (v : List Char) (f : F64) (w : Nat) (q : ℚ),
      parse_ether_value v = .ok w →
      parseF64 v = some f →
      (f64Mul f ethScale).toRat = some q →
      q < 2 ^ 128 →
      (w : ℚ) ≤ q ∧ q < (w : ℚ) + 1) := by
  refine ⟨rfl, rfl, rfl, ?_⟩
  intro v f w q hok hf hq hlt
  unfold parse_ether_value at hok
  rw [hf] at hok
  dsimp only at hok
  by_cases hneg : f.isSignNegative = true
  · rw [if_pos hneg] at hok
    exact absurd hok (by simp)
  · simp only [Bool.not_eq_true] at hneg
    rw [if_neg (by simp [hneg])] at hok
    have hsign : (f64Mul f ethScale).isSignNegative = false :=
      f64Mul_sign_false hneg rfl
    cases hG : f64Mul f ethScale with
    | nan s => rw [hG] at hq; simp [F64.toRat] at hq
    | inf s => rw [hG] at hq; simp [F64.toRat] at hq
    | finite neg m e =>
      rw [hG] at hsign
      simp only [F64.isSignNegative] at hsign
      subst hsign
      rw [hG] at hq
      simp only [F64.toRat, if_neg Bool.false_ne_true, one_mul,
        Option.some_inj] at hq
      rw [hG] at hok
      simp only [castU128, if_neg Bool.false_ne_true, Except.ok.injEq] at hok
      obtain ⟨hle, hlt1⟩ := floorPos_bounds m e
      rw [hq] at hle hlt1
      have hfloor_lt : ((floorPos m e : Nat) : ℚ) < 2 ^ 128 := lt_of_le_of_lt hle hlt
      have hfloor_lt' : floorPos m e < 2 ^ 128 := by exact_mod_cast hfloor_lt
      have hmin : min u128Max (floorPos m e) = floorPos m e := by
        have hm : u128Max = 2 ^ 128 - 1 := by decide
        omega
      rw [hmin] at hok
      rw [← hok]
      exact ⟨hle, hlt1⟩

/-- Witness for C4's universal part at `"1.5"` (whose product with `1e18` is
the exactly representable `1.5e18`), together with the `"1.05"` case. -/
theorem C4_ether_truncation_witness :
    parse_ether_value ['1', '.', '0', '5'] = .ok 1050000000000000000 ∧
    ((1500000000000000000 : ℚ) ≤ (1500000000000000000 : ℚ) ∧
      (1500000000000000000 : ℚ) < (1500000000000000000 : ℚ) + 1) := by
  constructor
  · exact C4_ether_truncation.1
  · have hG : f64Mul (F64.finite false 6755399441055744 (-52)) ethScale =
        .finite false 5859375000000000 8 := by rfl
    have hq : (f64Mul (F64.finite false 6755399441055744 (-52)) ethScale).toRat =
        some (1500000000000000000 : ℚ) := by
      rw [hG]
      simp only [F64.toRat, if_neg Bool.false_ne_true, one_mul, Option.some_inj]
      norm_num
    exact C4_ether_truncation.2.2.2 ['1', '.', '5']
      (F64.finite false 6755399441055744 (-52)) 1500000000000000000
      (1500000000000000000 : ℚ) (by rfl) (by rfl) hq (by norm_num)

/-- C5: whenever the float parse of the input yields a value whose sign bit
is negative (negative zero included), `parse_ether_value` fails with the
explicit negative-value error; whenever the input does not parse as a float,
it fails with the generic parse error. -/
theorem C5_negative_and_parse_errors (v : List Char) :
    (∀ f, parseF64 v = some f → f.isSignNegative = true →
      parse_ether_value v = .error .negative) ∧
    (parseF64 v = none → parse_ether_value v = .error .floatParse) := by
  constructor
  · intro f hf hneg
    unfold parse_ether_value
    rw [hf]
    dsimp only
    rw [if_pos hneg]
  · intro h
    unfold parse_ether_value
    rw [h]

/-- Witness for C5: `"-0"` parses to negative zero (sign bit set) and is
rejected as negative; `"abc"` does not parse and is rejected with the generic
parse error. -/
theorem C5_negative_and_parse_errors_witness :
    parseF64 ['-', '0'] = some (.finite true 0 0) ∧
    parse_ether_value ['-', '0'] = .error .negative ∧
    parse_ether_value ['a', 'b', 'c'] = .error .floatParse :=
  ⟨rfl, (C5_negative_and_parse_errors ['-', '0']).1 _ rfl rfl,
    (C5_negative_and_parse_errors ['a', 'b', 'c']).2 rfl⟩

/-- C6: the empty string fails with the `Empty` error, whatever the resolver
would do (the emptiness check precedes every other step). -/
theorem C6_empty_error (resolve : List Char → Except Nat (List SockAddr)) :
    parse_socket_address resolve [] = .error .empty := rfl

/-- C7: every success of `parse_socket_address` either carries the loopback
IP `127.0.0.1` (the prefix and bare-port paths always do), or was produced by
the resolution path — the prefix strip yielded nothing, the bare `u16` parse
failed, and the address is the first one returned by the resolver. -/
theorem C7_loopback_invariant
    (resolve : List Char → Except Nat (List SockAddr)) (value : List Char)
    (addr : SockAddr)
    (h : parse_socket_address resolve value = .ok addr) :
    addr.ip = localhostIp ∨
      (stripPortPre value = none ∧
        (∃ e, parseUnsigned u16Max value = .error e) ∧
        ∃ rest, resolve value = .ok (addr :: rest)) := by
  unfold parse_socket_address at h
  by_cases hv : value = []
  · rw [if_pos hv] at h
    exact absurd h (by simp)
  · rw [if_neg hv] at h
    split at h
    next pr hsp =>
      split at h
      next p hp =>
        simp only [Except.ok.injEq] at h
        left
        rw [← h]
      next e hp => exact absurd h (by simp)
    next hsp =>
      split at h
      next p hp =>
        simp only [Except.ok.injEq] at h
        left
        rw [← h]
      next e hp =>
        split at h
        next code hr => exact absurd h (by simp)
        next hr => exact absurd h (by simp)
        next a rest hr =>
          simp only [Except.ok.injEq] at h
          subst h
          exact Or.inr ⟨hsp, ⟨e, hp⟩, ⟨rest, hr⟩⟩

/-- Witness for C7 at `"hi"` with a resolver returning a non-loopback V6
address: the conclusion holds via the resolution disjunct. -/
theorem C7_loopback_invariant_witness :
    (SockAddr.mk (.v6 1) 7).ip = localhostIp ∨
      (stripPortPre ['h', 'i'] = none ∧
        (∃ e, parseUnsigned u16Max ['h', 'i'] = .error e) ∧
        ∃ rest, resolveV6 ['h', 'i'] = .ok (⟨.v6 1, 7⟩ :: rest)) :=
  C7_loopback_invariant resolveV6 ['h', 'i'] ⟨.v6 1, 7⟩ rfl

/-- C8 is refuted on the stated mechanism: `"5ns"` does NOT fall through to
the no-suffix rule with the full string fed to the integer parser — it ends
with `'s'`, so the `'s'` branch is taken and the integer parser receives the
trimmed `"5n"` (the observed failure, `InvalidDigit`, is the same). -/
theorem C8_s_branch_counterexample :
    endsWith ['5', 'n', 's'] sPat = true ∧
    trimEnd sPat ['5', 'n', 's'] = ['5', 'n'] ∧
    parse_duration_from_secs_or_ms ['5', 'n', 's'] =
      (parseUnsigned u64Max ['5', 'n']).map Duration.fromSecs ∧
    parse_duration_from_secs_or_ms ['5', 'n', 's'] = .error .invalidDigit :=
  ⟨rfl, rfl, rfl, rfl⟩

/-- C8 (amended): `"5ns"` fails with the malformed-integer error, but via the
`'s'`-suffix rule: the string ends with `'s'` (not with `"ms"`), the trailing
`'s'` is stripped, and the remainder `"5n"` fails to parse as an unsigned
integer. -/
theorem C8_5ns_fails :
    parse_duration_from_secs_or_ms ['5', 'n', 's'] = .error .invalidDigit ∧
    endsWith ['5', 'n', 's'] msPat = false ∧
    endsWith ['5', 'n', 's'] sPat = true ∧
    parseUnsigned u64Max (trimEnd sPat ['5', 'n', 's']) = .error .invalidDigit :=
  ⟨rfl, rfl, rfl, rfl⟩

/-- C9: `parse_duration_from_secs`, `parse_duration_from_secs_or_ms`, the
hash-or-number parser and `parse_ether_value` are pure functions of their
input: two invocations on the same string produce the same outcome. -/
theorem C9_deterministic (arg : List Char) :
    parse_duration_from_secs arg = parse_duration_from_secs arg ∧
    parse_duration_from_secs_or_ms arg = parse_duration_from_secs_or_ms arg ∧
    hash_or_num_value_fn arg = hash_or_num_value_fn arg ∧
    parse_ether_value arg = parse_ether_value arg :=
  ⟨rfl, rfl, rfl, rfl⟩

/-- C10: `parse_ether_value` accepts non-finite floats: `"NaN"` parses to a
(positive-sign) NaN and returns 0, and `"inf"` parses to positive infinity
and returns `u128::MAX` (`2^128 - 1`), via the saturating float-to-`u128`
cast. -/
theorem C10_nonfinite_accepted :
    parseF64 ['N', 'a', 'N'] = some (.nan false) ∧
    parse_ether_value ['N', 'a', 'N'] = .ok 0 ∧
    parseF64 ['i', 'n', 'f'] = some (.inf false) ∧
    parse_ether_value ['i', 'n', 'f'] = .ok u128Max ∧
    u128Max = 2 ^ 128 - 1 :=
  ⟨rfl, rfl, rfl, rfl, by decide⟩
